import Mathlib

/-
Verification development for the windows-hotkeys crate (src/lib.rs).

The crate's core is `HotkeyManager<T>`: an `i32` identifier counter
(`id_offset`), a `HashMap<HotkeyId, HotkeyCallback<T>>` of registered
handlers, and four operations that talk to the Windows API
(`RegisterHotKey`, `UnregisterHotKey`, `GetMessageW`,
`GetAsyncKeyState`).

Embedding choices:
- `i32` arithmetic is modelled on `Int` with explicit two's-complement
  wrap-around (`wrap32`), matching the release-mode semantics of
  `self.id_offset += 1` and of the `as i32` / `as u32` casts.
- The boxed `Fn() -> T` callbacks may carry interior mutability, so a
  callback is modelled as a state transformer `σ → T × σ` over an
  abstract effect state `σ`; "the callback ran exactly once" is visible
  as exactly one application to the effect state.
- Each Windows API call is an external collaborator; its reply is an
  explicit function parameter of the operation (reply as a function of
  the arguments the code passes), so theorems quantify over all OS
  behaviours.
- `HashMap<HotkeyId, _>` is modelled as an association list with the
  usual map semantics (`lookupH` finds the entry, `insertH` replaces or
  appends, `removeH` deletes); reachable managers keep their keys
  distinct.
-/

namespace WinHotkeys

/-- Two's-complement wrap of an unbounded integer into the `i32` range,
`[-2^31, 2^31)`.  `wrap32 n` is the value of the low 32 bits of `n`
read as a signed 32-bit integer; it models `i32` overflow and the
truncating `as i32` cast. -/
def wrap32 (n : Int) : Int :=
  (n + 2147483648) % 4294967296 - 2147483648

/-- Modelled from the spec: the Key Vocabulary (keys.rs, not under src/)
maps symbolic key names to the OS's native numeric virtual-key codes; we
identify a `VKey` with its native code. -/
abbrev VKey := Int

/-- Modelled from the spec: `VKey::to_vk_code` yields the native numeric
code of the key; with `VKey` identified with its code it is the
identity. -/
def VKey.to_vk_code (v : VKey) : Int := v

/-- Modelled from the spec: a modifier key is identified with its native
flag value (e.g. MOD_ALT, MOD_CONTROL), an unsigned bit flag. -/
abbrev ModKey := Nat

/-- Modelled from the spec: `ModKey::combine` (keys.rs, not under src/)
combines a list of modifier flags as a bitmask, i.e. bitwise-ors them
together. -/
def ModKey.combine (key_modifiers : List ModKey) : Nat :=
  key_modifiers.foldl (fun acc m => acc ||| m) 0

/-- The `winuser::MOD_NOREPEAT` flag (0x4000): suppress auto-repeat of
the hotkey event while the combination is held down. -/
def MOD_NOREPEAT : Nat := 0x4000

/-- The `winuser::WM_HOTKEY` message class constant (0x0312). -/
def WM_HOTKEY : Nat := 0x0312

/-- Modelled from the spec: the error taxonomy (error.rs, not under
src/) consists of a registration failure and an unregistration
failure. -/
inductive HkError where
  | RegistrationFailed
  | UnregistrationFailed
deriving DecidableEq, Repr

/-- `HotkeyCallback<T>`: the stored callback together with the list of
extra virtual keys that must additionally be pressed at dispatch time.
The callback transforms an abstract effect state `σ` to model the
side effects a boxed `Fn() -> T` closure may have. -/
structure HotkeyCallback (σ T : Type) where
  callback : σ → T × σ
  extra_keys : List VKey

/-- `HotkeyManager<T>`: the `i32` identifier counter and the handler
map from hotkey identifier (the `i32` inside `HotkeyId`) to its
`HotkeyCallback`. -/
structure HotkeyManager (σ T : Type) where
  id_offset : Int
  handlers : List (Int × HotkeyCallback σ T)

variable {σ T : Type}

/-- Association-list reading of `HashMap::get`: the value stored under
a key, if any. -/
def lookupH (id : Int) : List (Int × HotkeyCallback σ T) → Option (HotkeyCallback σ T)
  | [] => none
  | e :: rest => if e.1 = id then some e.2 else lookupH id rest

/-- Association-list reading of `HashMap::insert`: replace the entry
under the key if present, otherwise append a new entry. -/
def insertH (id : Int) (v : HotkeyCallback σ T)
    (l : List (Int × HotkeyCallback σ T)) : List (Int × HotkeyCallback σ T) :=
  if l.any (fun e => e.1 = id) then
    l.map (fun e => if e.1 = id then (id, v) else e)
  else
    l ++ [(id, v)]

/-- Association-list reading of `HashMap::remove`: delete the entry
stored under the key. -/
def removeH (id : Int) (l : List (Int × HotkeyCallback σ T)) :
    List (Int × HotkeyCallback σ T) :=
  l.filter (fun e => decide (e.1 ≠ id))

/-- Association-list reading of `HashMap::keys`: the list of keys. -/
def keysH (l : List (Int × HotkeyCallback σ T)) : List Int :=
  l.map (fun e => e.1)

/-- `HotkeyManager::new`: id counter starts at offset 0, no handlers. -/
def HotkeyManager.new : HotkeyManager σ T := ⟨0, []⟩

/-- `HotkeyManager::new_with_id_offset`: id counter starts at the given
offset, no handlers. -/
def HotkeyManager.new_with_id_offset (id_offset : Int) : HotkeyManager σ T :=
  ⟨id_offset, []⟩

/-- The modifier mask the code passes to `RegisterHotKey`:
`ModKey::combine(key_modifiers) | winuser::MOD_NOREPEAT as u32`. -/
def registerMask (key_modifiers : List ModKey) : Nat :=
  ModKey.combine key_modifiers ||| MOD_NOREPEAT

/-- `HotkeyManager::register_extrakeys`.  `osRegister` is the Windows
`RegisterHotKey` collaborator, a function of the id, modifier mask and
key code the code passes; `true` models a nonzero (success) return.
The source allocates `register_id`, increments `id_offset` (i32, so
with wrap-around), calls `RegisterHotKey`, and only on success inserts
the callback and extra keys under the fresh id. -/
def register_extrakeys (m : HotkeyManager σ T) (key : VKey)
    (key_modifiers : List ModKey) (extra_keys : List VKey)
    (callback : σ → T × σ) (osRegister : Int → Nat → Int → Bool) :
    Except HkError Int × HotkeyManager σ T :=
  let register_id := m.id_offset
  let m1 : HotkeyManager σ T := { m with id_offset := wrap32 (m.id_offset + 1) }
  let reg_ok := osRegister register_id (registerMask key_modifiers) (VKey.to_vk_code key)
  if reg_ok then
    (Except.ok register_id,
      { m1 with handlers := insertH register_id ⟨callback, extra_keys⟩ m1.handlers })
  else
    (Except.error HkError.RegistrationFailed, m1)

/-- `HotkeyManager::register`: same as `register_extrakeys` with an
empty extra-key list. -/
def register (m : HotkeyManager σ T) (key : VKey)
    (key_modifiers : List ModKey) (callback : σ → T × σ)
    (osRegister : Int → Nat → Int → Bool) :
    Except HkError Int × HotkeyManager σ T :=
  register_extrakeys m key key_modifiers [] callback osRegister

/-- `HotkeyManager::unregister`.  `osUnregister` is the Windows
`UnregisterHotKey` collaborator as a function of the id; `true` models
a nonzero (success) return.  On OS failure the error is returned and
the handler map is untouched; on success the entry is removed. -/
def unregister (m : HotkeyManager σ T) (id : Int)
    (osUnregister : Int → Bool) : Except HkError Unit × HotkeyManager σ T :=
  let ok := osUnregister id
  if ok then
    (Except.ok (), { m with handlers := removeH id m.handlers })
  else
    (Except.error HkError.UnregistrationFailed, m)

/-- The loop body of `HotkeyManager::unregister_all`: unregister each id
of the snapshot in turn, stopping at (and propagating) the first
failure, as the source's `self.unregister(id)?` does. -/
def unregAllGo (osUnregister : Int → Bool) :
    HotkeyManager σ T → List Int → Except HkError Unit × HotkeyManager σ T
  | m, [] => (Except.ok (), m)
  | m, id :: rest =>
    match unregister m id osUnregister with
    | (Except.ok _, m1) => unregAllGo osUnregister m1 rest
    | (Except.error e, m1) => (Except.error e, m1)

/-- `HotkeyManager::unregister_all`: snapshot the current keys
(`self.handlers.keys().copied().collect()`), then unregister each. -/
def unregister_all (m : HotkeyManager σ T) (osUnregister : Int → Bool) :
    Except HkError Unit × HotkeyManager σ T :=
  unregAllGo osUnregister m (keysH m.handlers)

/-- `get_global_keystate`.  `osGetAsyncKeyState` is the Windows
`GetAsyncKeyState` collaborator; its return value is a SHORT (`i16`).
The source reinterprets it `as u32` (two's-complement sign extension,
i.e. the low 32 bits of the integer), shifts right by 31 to keep the
most significant bit only, and compares with 1. -/
def get_global_keystate (osGetAsyncKeyState : Int → Int) (vk : VKey) : Bool :=
  let key_state := osGetAsyncKeyState (VKey.to_vk_code vk)
  let key_state_msb := (key_state % 4294967296).toNat >>> 31
  key_state_msb == 1

/-- The `MSG` structure fields `poll_event` reads: the message class
and the `wParam` payload (a `usize`, modelled as `Nat`). -/
structure Msg where
  message : Nat
  wParam : Nat

/-- `HotkeyManager::poll_event`.  `getMessageOk` models a nonzero
return of `GetMessageW` and `msg` the retrieved message;
`osGetAsyncKeyState` is the key-state collaborator queried by the
extra-key gate at dispatch time.  The effect state `s` threads the
callback's side effects; the handler map is returned unchanged (the
source only reads `self.handlers`).  The source checks the message
class, converts `msg.wParam as i32` into a `HotkeyId`, looks the id up,
and runs the callback only when no extra key is found unpressed. -/
def poll_event (m : HotkeyManager σ T) (getMessageOk : Bool) (msg : Msg)
    (osGetAsyncKeyState : Int → Int) (s : σ) :
    Option T × HotkeyManager σ T × σ :=
  if getMessageOk then
    if WM_HOTKEY = msg.message then
      let hk_id := wrap32 (Int.ofNat msg.wParam)
      match lookupH hk_id m.handlers with
      | some handler =>
        match handler.extra_keys.find?
            (fun vk => !(get_global_keystate osGetAsyncKeyState vk)) with
        | none =>
          let r := handler.callback s
          (some r.1, m, r.2)
        | some _ => (none, m, s)
      | none => (none, m, s)
    else (none, m, s)
  else (none, m, s)

/-! Trace semantics.  A `Cmd` is one public manager operation together
with the replies the OS collaborators give during it.  A `World` pairs
the manager with the set of identifiers the OS currently holds a live
hotkey binding for: Windows creates a binding exactly when
`RegisterHotKey` reports success and releases one exactly when
`UnregisterHotKey` reports success, which is what `stepW` records in
`osLive`. -/

/-- One public manager operation with the OS replies it consumes.
`reg` covers both `register` (empty `extra_keys`) and
`register_extrakeys`. -/
inductive Cmd (σ T : Type) where
  | reg (key : VKey) (key_modifiers : List ModKey) (extra_keys : List VKey)
      (callback : σ → T × σ) (osRegister : Int → Nat → Int → Bool)
  | unreg (id : Int) (osUnregister : Int → Bool)
  | unregAll (osUnregister : Int → Bool)
  | poll (getMessageOk : Bool) (msg : Msg) (osGetAsyncKeyState : Int → Int)

/-- A manager together with the identifiers the OS holds a live hotkey
binding for, and the callbacks' effect state. -/
structure World (σ T : Type) where
  mgr : HotkeyManager σ T
  osLive : List Int
  eff : σ

/-- World-level loop body of `unregister_all`: each successful
`UnregisterHotKey` also releases the OS binding, the first failure
stops the walk. -/
def wUnregGo (osUnregister : Int → Bool) :
    World σ T → List Int → World σ T
  | w, [] => w
  | w, id :: rest =>
    match unregister w.mgr id osUnregister with
    | (Except.ok _, m1) =>
      wUnregGo osUnregister
        ⟨m1, w.osLive.filter (fun j => decide (j ≠ id)), w.eff⟩ rest
    | (Except.error _, m1) => ⟨m1, w.osLive, w.eff⟩

/-- One step of the trace semantics: run the operation on the manager
and mirror successful OS calls in `osLive`. -/
def stepW (w : World σ T) : Cmd σ T → World σ T
  | Cmd.reg key mods extra cb osReg =>
    match register_extrakeys w.mgr key mods extra cb osReg with
    | (Except.ok id, m1) => ⟨m1, id :: w.osLive, w.eff⟩
    | (Except.error _, m1) => ⟨m1, w.osLive, w.eff⟩
  | Cmd.unreg id osU =>
    match unregister w.mgr id osU with
    | (Except.ok _, m1) => ⟨m1, w.osLive.filter (fun j => decide (j ≠ id)), w.eff⟩
    | (Except.error _, m1) => ⟨m1, w.osLive, w.eff⟩
  | Cmd.unregAll osU => wUnregGo osU w (keysH w.mgr.handlers)
  | Cmd.poll gOk msg osKS =>
    match poll_event w.mgr gOk msg osKS w.eff with
    | (_, m1, s1) => ⟨m1, w.osLive, s1⟩

/-- Run a list of operations from a world. -/
def runWorld (w : World σ T) (cs : List (Cmd σ T)) : World σ T :=
  cs.foldl stepW w

/-- The identifiers a single operation hands out to the caller: a
successful `reg` returns its fresh identifier, everything else returns
none. -/
def cmdIds (w : World σ T) : Cmd σ T → List Int
  | Cmd.reg key mods extra cb osReg =>
    match (register_extrakeys w.mgr key mods extra cb osReg).1 with
    | Except.ok id => [id]
    | Except.error _ => []
  | _ => []

/-- Run a list of operations and collect every identifier handed out by
a register call along the way. -/
def runC (w : World σ T) : List (Cmd σ T) → World σ T × List Int
  | [] => (w, [])
  | c :: cs =>
    let ids := cmdIds w c
    let p := runC (stepW w c) cs
    (p.1, ids ++ p.2)

/-- The world of a freshly constructed manager
(`new_with_id_offset`; `new` is the offset-0 case): no handlers, no
OS bindings created by this manager. -/
def initWorld (id_offset : Int) (s : σ) : World σ T :=
  ⟨HotkeyManager.new_with_id_offset id_offset, [], s⟩

/-- Membership in the `i32` range, the type of the id counter and of a
`new_with_id_offset` argument. -/
def InI32 (n : Int) : Prop := -2147483648 ≤ n ∧ n < 2147483648

/-- A world reachable from a freshly constructed manager (construction
offset a genuine `i32`) by a sequence of public operations, with the
OS replying arbitrarily. -/
def Reachable (w : World σ T) : Prop :=
  ∃ o : Int, ∃ s : σ, ∃ cs : List (Cmd σ T),
    InI32 o ∧ runWorld (initWorld o s) cs = w

/-- The number of register calls in a trace. -/
def countRegs (cs : List (Cmd σ T)) : Nat :=
  cs.countP (fun c => match c with
    | Cmd.reg _ _ _ _ _ => true
    | _ => false)

/-! Arithmetic facts about the `i32` wrap. -/

theorem wrap32_in_i32 (n : Int) : InI32 (wrap32 n) := by
  unfold InI32 wrap32
  omega

theorem wrap32_eq_self {n : Int} (h : InI32 n) : wrap32 n = n := by
  unfold InI32 at h
  unfold wrap32
  omega

theorem wrap32_add_left (a b : Int) : wrap32 (wrap32 a + b) = wrap32 (a + b) := by
  unfold wrap32
  omega

theorem wrap32_inj {a b : Int} (h : wrap32 a = wrap32 b) :
    a % 4294967296 = b % 4294967296 := by
  unfold wrap32 at h
  omega

/-! Association-list facts. -/

theorem mem_keysH (j : Int) (l : List (Int × HotkeyCallback σ T)) :
    j ∈ keysH l ↔ ∃ e, e ∈ l ∧ e.1 = j := by
  unfold keysH
  simp

theorem lookupH_eq_none_iff (j : Int) (l : List (Int × HotkeyCallback σ T)) :
    lookupH j l = none ↔ j ∉ keysH l := by
  induction l with
  | nil => simp [lookupH, keysH]
  | cons e rest ih =>
    by_cases he : e.1 = j
    · simp only [lookupH, if_pos he]
      simp only [mem_keysH]
      constructor
      · intro h
        cases h
      · intro h
        exact absurd ⟨e, List.mem_cons_self e rest, he⟩ h
    · rw [show lookupH j (e :: rest) = lookupH j rest from by simp [lookupH, he]]
      rw [ih]
      simp only [mem_keysH]
      constructor
      · rintro h ⟨e0, he0, hej⟩
        rcases List.mem_cons.mp he0 with rfl | he0
        · exact he hej
        · exact h ⟨e0, he0, hej⟩
      · rintro h ⟨e0, he0, hej⟩
        exact h ⟨e0, List.mem_cons_of_mem e he0, hej⟩

theorem lookupH_append_of_none (j : Int)
    (l1 l2 : List (Int × HotkeyCallback σ T)) (h : lookupH j l1 = none) :
    lookupH j (l1 ++ l2) = lookupH j l2 := by
  induction l1 with
  | nil => simp
  | cons e rest ih =>
    simp only [lookupH] at h
    by_cases he : e.1 = j
    · rw [if_pos he] at h
      cases h
    · rw [if_neg he] at h
      rw [List.cons_append]
      simp only [lookupH, if_neg he]
      exact ih h

theorem lookupH_append_of_some (j : Int) (v : HotkeyCallback σ T)
    (l1 l2 : List (Int × HotkeyCallback σ T)) (h : lookupH j l1 = some v) :
    lookupH j (l1 ++ l2) = some v := by
  induction l1 with
  | nil => cases h
  | cons e rest ih =>
    simp only [lookupH] at h
    by_cases he : e.1 = j
    · rw [if_pos he] at h
      rw [List.cons_append]
      simp only [lookupH, if_pos he]
      exact h
    · rw [if_neg he] at h
      rw [List.cons_append]
      simp only [lookupH, if_neg he]
      exact ih h

theorem lookupH_append_single_self (j : Int) (v : HotkeyCallback σ T)
    (l : List (Int × HotkeyCallback σ T)) (h : j ∉ keysH l) :
    lookupH j (l ++ [(j, v)]) = some v := by
  rw [lookupH_append_of_none j l _ ((lookupH_eq_none_iff j l).mpr h)]
  simp [lookupH]

theorem lookupH_append_single_ne (i j : Int) (v : HotkeyCallback σ T)
    (l : List (Int × HotkeyCallback σ T)) (h : i ≠ j) :
    lookupH j (l ++ [(i, v)]) = lookupH j l := by
  cases hl : lookupH j l with
  | none =>
    rw [lookupH_append_of_none j l _ hl]
    simp [lookupH, h]
  | some v0 => exact lookupH_append_of_some j v0 l _ hl

theorem lookupH_removeH_self (j : Int) (l : List (Int × HotkeyCallback σ T)) :
    lookupH j (removeH j l) = none := by
  induction l with
  | nil => rfl
  | cons e rest ih =>
    unfold removeH at ih ⊢
    by_cases he : e.1 = j
    · rw [List.filter_cons_of_neg (by simp [he])]
      exact ih
    · rw [List.filter_cons_of_pos (by simp [he])]
      simp only [lookupH, if_neg he]
      exact ih

theorem lookupH_removeH_ne (i j : Int) (l : List (Int × HotkeyCallback σ T))
    (h : j ≠ i) : lookupH j (removeH i l) = lookupH j l := by
  induction l with
  | nil => rfl
  | cons e rest ih =>
    unfold removeH at ih ⊢
    by_cases he : e.1 = i
    · rw [List.filter_cons_of_neg (by simp [he])]
      rw [ih]
      have hej : e.1 ≠ j := by
        rw [he]
        exact fun hh => h hh.symm
      simp [lookupH, hej]
    · rw [List.filter_cons_of_pos (by simp [he])]
      by_cases hej : e.1 = j
      · simp [lookupH, hej]
      · simp only [lookupH, if_neg hej]
        exact ih

theorem insertH_fresh (i : Int) (v : HotkeyCallback σ T)
    (l : List (Int × HotkeyCallback σ T)) (h : i ∉ keysH l) :
    insertH i v l = l ++ [(i, v)] := by
  unfold insertH
  have hany : l.any (fun e => e.1 = i) = false := by
    rw [List.any_eq_false]
    intro e he
    simp only [decide_eq_true_eq]
    intro hei
    exact h ((mem_keysH i l).mpr ⟨e, he, hei⟩)
  simp [hany]

theorem mem_keysH_removeH (i j : Int) (l : List (Int × HotkeyCallback σ T)) :
    j ∈ keysH (removeH i l) ↔ j ∈ keysH l ∧ j ≠ i := by
  unfold removeH
  simp only [mem_keysH, List.mem_filter, decide_eq_true_eq]
  constructor
  · rintro ⟨e, ⟨hel, hne⟩, rfl⟩
    exact ⟨⟨e, hel, rfl⟩, hne⟩
  · rintro ⟨⟨e, hel, rfl⟩, hne⟩
    exact ⟨e, ⟨hel, hne⟩, rfl⟩

theorem mem_keysH_insertH (i j : Int) (v : HotkeyCallback σ T)
    (l : List (Int × HotkeyCallback σ T)) :
    j ∈ keysH (insertH i v l) ↔ j = i ∨ j ∈ keysH l := by
  unfold insertH
  by_cases hmem : l.any (fun e => e.1 = i) = true
  · rw [if_pos hmem]
    rw [List.any_eq_true] at hmem
    obtain ⟨e0, he0, hei⟩ := hmem
    rw [decide_eq_true_eq] at hei
    simp only [mem_keysH]
    constructor
    · rintro ⟨e, he, hej⟩
      obtain ⟨e1, he1, rfl⟩ := List.mem_map.mp he
      by_cases h1 : e1.1 = i
      · rw [if_pos h1] at hej
        exact Or.inl hej.symm
      · rw [if_neg h1] at hej
        exact Or.inr ⟨e1, he1, hej⟩
    · rintro (hji | ⟨e, he, hej⟩)
      · rw [hji]
        refine ⟨if e0.1 = i then (i, v) else e0,
          List.mem_map.mpr ⟨e0, he0, rfl⟩, ?_⟩
        rw [if_pos hei]
      · by_cases h1 : e.1 = i
        · refine ⟨if e.1 = i then (i, v) else e,
            List.mem_map.mpr ⟨e, he, rfl⟩, ?_⟩
          rw [if_pos h1]
          rw [← h1, hej]
        · refine ⟨if e.1 = i then (i, v) else e,
            List.mem_map.mpr ⟨e, he, rfl⟩, ?_⟩
          rw [if_neg h1]
          exact hej
  · rw [if_neg hmem]
    unfold keysH
    rw [List.map_append]
    simp [or_comm]

/-! Unfolding equations for the operations. -/

theorem register_extrakeys_def (m : HotkeyManager σ T) (key : VKey)
    (mods : List ModKey) (extra : List VKey) (cb : σ → T × σ)
    (osReg : Int → Nat → Int → Bool) :
    register_extrakeys m key mods extra cb osReg =
      if osReg m.id_offset (registerMask mods) (VKey.to_vk_code key) then
        (Except.ok m.id_offset,
          ⟨wrap32 (m.id_offset + 1), insertH m.id_offset ⟨cb, extra⟩ m.handlers⟩)
      else
        (Except.error HkError.RegistrationFailed,
          ⟨wrap32 (m.id_offset + 1), m.handlers⟩) := rfl

theorem unregister_def (m : HotkeyManager σ T) (id : Int)
    (osU : Int → Bool) :
    unregister m id osU =
      if osU id then (Except.ok (), ⟨m.id_offset, removeH id m.handlers⟩)
      else (Except.error HkError.UnregistrationFailed, m) := rfl

theorem get_global_keystate_def (osKS : Int → Int) (vk : VKey) :
    get_global_keystate osKS vk =
      (((osKS (VKey.to_vk_code vk)) % 4294967296).toNat >>> 31 == 1) := rfl

/-- C9: the modifier mask the code passes to `RegisterHotKey` is the
bitwise or of the caller's combined modifier flags with the implicit
`MOD_NOREPEAT` (no auto-repeat) bit, and that bit (bit 14, value
0x4000) is set in the mask no matter what the caller passed.  The
first two conjuncts are about the mask expression itself; the third
observes the mask through the OS collaborator: an OS that accepts a
registration exactly when the mask equals the claimed combination and
has the no-repeat bit set reports success on every register call. -/
theorem claim_C9_norepeat_mask (m : HotkeyManager σ T) (key : VKey)
    (mods : List ModKey) (extra : List VKey) (cb : σ → T × σ) :
    registerMask mods = (ModKey.combine mods ||| MOD_NOREPEAT)
    ∧ (registerMask mods).testBit 14 = true
    ∧ (register_extrakeys m key mods extra cb
        (fun _ mask _ =>
          decide (mask = (ModKey.combine mods ||| MOD_NOREPEAT)
            ∧ mask.testBit 14 = true))).1 = Except.ok m.id_offset := by
  have hbit : (registerMask mods).testBit 14 = true := by
    unfold registerMask MOD_NOREPEAT
    rw [Nat.testBit_lor]
    have h14 : Nat.testBit 16384 14 = true := by decide
    simp [h14]
  refine ⟨rfl, hbit, ?_⟩
  rw [register_extrakeys_def]
  rw [decide_eq_true (⟨rfl, hbit⟩ :
    registerMask mods = (ModKey.combine mods ||| MOD_NOREPEAT)
      ∧ (registerMask mods).testBit 14 = true)]
  simp

/-- C10: `get_global_keystate` returns true exactly when the value the
OS key-state query reports (a SHORT, i.e. a value in the `i16` range)
is negative, i.e. when its sign bit is set; in particular the result
depends only on the sign, so the low-order "pressed since last query"
bit never affects it. -/
theorem claim_C10_keystate_msb (osKS : Int → Int) (vk : VKey)
    (hlo : -32768 ≤ osKS (VKey.to_vk_code vk))
    (hhi : osKS (VKey.to_vk_code vk) < 32768) :
    (get_global_keystate osKS vk = true ↔ osKS (VKey.to_vk_code vk) < 0) := by
  rw [get_global_keystate_def]
  rw [Nat.shiftRight_eq_div_pow, beq_iff_eq]
  norm_num
  omega

/-- Witness for C10 at a concrete input: an OS reporting the i16 value
-32768 (sign bit set, low bit clear) yields a pressed key, and one
reporting 1 (sign bit clear, low bit set) yields a released key. -/
theorem claim_C10_keystate_msb_witness :
    (-32768 ≤ ((fun _ => (-32768 : Int)) (VKey.to_vk_code 65))
      ∧ ((fun _ => (-32768 : Int)) (VKey.to_vk_code 65)) < 32768
      ∧ get_global_keystate (fun _ => (-32768 : Int)) 65 = true)
    ∧ (get_global_keystate (fun _ => (1 : Int)) 65 = false) := by
  refine ⟨⟨by norm_num, by norm_num, ?_⟩, by decide⟩
  exact (claim_C10_keystate_msb (fun _ => (-32768 : Int)) 65
    (by norm_num) (by norm_num)).mpr (by norm_num)

/-! Unfolding equations for `poll_event` and the world step. -/

theorem poll_event_def (m : HotkeyManager σ T) (gOk : Bool) (msg : Msg)
    (osKS : Int → Int) (s : σ) :
    poll_event m gOk msg osKS s =
      if gOk then
        if WM_HOTKEY = msg.message then
          match lookupH (wrap32 (Int.ofNat msg.wParam)) m.handlers with
          | some handler =>
            (match handler.extra_keys.find?
                (fun vk => !(get_global_keystate osKS vk)) with
             | none => (some (handler.callback s).1, m, (handler.callback s).2)
             | some _ => (none, m, s))
          | none => (none, m, s)
        else (none, m, s)
      else (none, m, s) := rfl

theorem poll_event_mgr (m : HotkeyManager σ T) (gOk : Bool) (msg : Msg)
    (osKS : Int → Int) (s : σ) :
    (poll_event m gOk msg osKS s).2.1 = m := by
  rw [poll_event_def]
  split
  · split
    · split
      · split
        · rfl
        · rfl
      · rfl
    · rfl
  · rfl

theorem stepW_reg (w : World σ T) (key : VKey) (mods : List ModKey)
    (extra : List VKey) (cb : σ → T × σ) (osReg : Int → Nat → Int → Bool) :
    stepW w (Cmd.reg key mods extra cb osReg) =
      if osReg w.mgr.id_offset (registerMask mods) (VKey.to_vk_code key) then
        ⟨⟨wrap32 (w.mgr.id_offset + 1),
            insertH w.mgr.id_offset ⟨cb, extra⟩ w.mgr.handlers⟩,
          w.mgr.id_offset :: w.osLive, w.eff⟩
      else
        ⟨⟨wrap32 (w.mgr.id_offset + 1), w.mgr.handlers⟩, w.osLive, w.eff⟩ := by
  simp only [stepW]
  rw [register_extrakeys_def]
  by_cases h : osReg w.mgr.id_offset (registerMask mods) (VKey.to_vk_code key)
  · rw [if_pos h, if_pos h]
  · rw [if_neg h, if_neg h]

theorem stepW_unreg (w : World σ T) (id : Int) (osU : Int → Bool) :
    stepW w (Cmd.unreg id osU) =
      if osU id then
        ⟨⟨w.mgr.id_offset, removeH id w.mgr.handlers⟩,
          w.osLive.filter (fun j => decide (j ≠ id)), w.eff⟩
      else ⟨w.mgr, w.osLive, w.eff⟩ := by
  simp only [stepW]
  rw [unregister_def]
  by_cases h : osU id
  · rw [if_pos h, if_pos h]
  · rw [if_neg h, if_neg h]

theorem stepW_unregAll (w : World σ T) (osU : Int → Bool) :
    stepW w (Cmd.unregAll osU) = wUnregGo osU w (keysH w.mgr.handlers) := rfl

theorem stepW_poll (w : World σ T) (gOk : Bool) (msg : Msg)
    (osKS : Int → Int) :
    stepW w (Cmd.poll gOk msg osKS) =
      ⟨(poll_event w.mgr gOk msg osKS w.eff).2.1, w.osLive,
        (poll_event w.mgr gOk msg osKS w.eff).2.2⟩ := by
  simp only [stepW]

theorem wUnregGo_cons (osU : Int → Bool) (w : World σ T) (id : Int)
    (rest : List Int) :
    wUnregGo osU w (id :: rest) =
      if osU id then
        wUnregGo osU
          ⟨⟨w.mgr.id_offset, removeH id w.mgr.handlers⟩,
            w.osLive.filter (fun j => decide (j ≠ id)), w.eff⟩ rest
      else ⟨w.mgr, w.osLive, w.eff⟩ := by
  simp only [wUnregGo]
  rw [unregister_def]
  by_cases h : osU id
  · rw [if_pos h, if_pos h]
  · rw [if_neg h, if_neg h]

/-! The lock-step invariant between the handler table and the OS's live
bindings. -/

/-- The handler table and the set of live OS bindings hold exactly the
same identifiers. -/
def KeysLive (w : World σ T) : Prop :=
  ∀ i : Int, (i ∈ keysH w.mgr.handlers ↔ i ∈ w.osLive)

theorem keysLive_wUnregGo (osU : Int → Bool) (ids : List Int) :
    ∀ w : World σ T, KeysLive w → KeysLive (wUnregGo osU w ids) := by
  induction ids with
  | nil => exact fun w hw => hw
  | cons id rest ih =>
    intro w hw
    rw [wUnregGo_cons]
    by_cases h : osU id
    · rw [if_pos h]
      apply ih
      intro i
      show i ∈ keysH (removeH id w.mgr.handlers) ↔ _
      rw [mem_keysH_removeH]
      rw [List.mem_filter]
      simp only [decide_eq_true_eq]
      exact and_congr_left (fun _ => hw i)
    · rw [if_neg h]
      exact fun i => hw i

theorem keysLive_stepW (w : World σ T) (c : Cmd σ T) (hw : KeysLive w) :
    KeysLive (stepW w c) := by
  cases c with
  | reg key mods extra cb osReg =>
    rw [stepW_reg]
    by_cases h : osReg w.mgr.id_offset (registerMask mods) (VKey.to_vk_code key)
    · rw [if_pos h]
      intro i
      show i ∈ keysH (insertH w.mgr.id_offset ⟨cb, extra⟩ w.mgr.handlers) ↔ _
      rw [mem_keysH_insertH]
      rw [List.mem_cons]
      exact or_congr Iff.rfl (hw i)
    · rw [if_neg h]
      exact fun i => hw i
  | unreg id osU =>
    rw [stepW_unreg]
    by_cases h : osU id
    · rw [if_pos h]
      intro i
      show i ∈ keysH (removeH id w.mgr.handlers) ↔ _
      rw [mem_keysH_removeH]
      rw [List.mem_filter]
      simp only [decide_eq_true_eq]
      exact and_congr_left (fun _ => hw i)
    · rw [if_neg h]
      exact fun i => hw i
  | unregAll osU => exact keysLive_wUnregGo osU (keysH w.mgr.handlers) w hw
  | poll gOk msg osKS =>
    rw [stepW_poll]
    intro i
    show i ∈ keysH ((poll_event w.mgr gOk msg osKS w.eff).2.1).handlers ↔ _
    rw [poll_event_mgr]
    exact hw i

theorem keysLive_runWorld (cs : List (Cmd σ T)) :
    ∀ w : World σ T, KeysLive w → KeysLive (runWorld w cs) := by
  induction cs with
  | nil => exact fun w hw => hw
  | cons c rest ih =>
    intro w hw
    exact ih (stepW w c) (keysLive_stepW w c hw)

theorem keysLive_of_reachable (w : World σ T) (h : Reachable w) :
    KeysLive w := by
  obtain ⟨o, s, cs, _, hrun⟩ := h
  have hinit : KeysLive (initWorld (σ := σ) (T := T) o s) := by
    intro i
    simp [initWorld, HotkeyManager.new_with_id_offset, keysH]
  exact hrun ▸ keysLive_runWorld cs _ hinit

/-- A trivial callback over a unit effect state, used by concrete
witnesses. -/
def unitCb : Unit → Unit × Unit := fun s => ((), s)

/-- A counting callback over a `Nat` effect state: returns and stores
the incremented counter, so exactly-once invocation is observable. -/
def natCb : Nat → Nat × Nat := fun n => (n + 1, n + 1)

/-- C6: in every world reachable by any sequence of manager operations
from construction, the identifiers in the handler map and the
identifiers with a live OS-level binding coincide: entries are inserted
only when the OS registration call succeeds and removed only when the
OS unregistration call succeeds, so the two stay in lock-step. -/
theorem claim_C6_lockstep (w : World σ T) (hw : Reachable w) :
    ∀ id : Int, (id ∈ keysH w.mgr.handlers ↔ id ∈ w.osLive) :=
  keysLive_of_reachable w hw

/-- Witness for C6: after one successful registration from a fresh
manager, identifier 0 is in the handler map, and the theorem transports
it into the OS's live-binding set. -/
theorem claim_C6_lockstep_witness :
    Reachable (stepW (initWorld (σ := Unit) (T := Unit) 0 ())
        (Cmd.reg 65 [] [] unitCb (fun _ _ _ => true)))
    ∧ (0 : Int) ∈ keysH (stepW (initWorld (σ := Unit) (T := Unit) 0 ())
        (Cmd.reg 65 [] [] unitCb (fun _ _ _ => true))).mgr.handlers
    ∧ (0 : Int) ∈ (stepW (initWorld (σ := Unit) (T := Unit) 0 ())
        (Cmd.reg 65 [] [] unitCb (fun _ _ _ => true))).osLive := by
  have hreach : Reachable (stepW (initWorld (σ := Unit) (T := Unit) 0 ())
      (Cmd.reg 65 [] [] unitCb (fun _ _ _ => true))) :=
    ⟨0, (), [Cmd.reg 65 [] [] unitCb (fun _ _ _ => true)],
      show (-2147483648 ≤ (0 : Int) ∧ (0 : Int) < 2147483648) ∧ _ from
        ⟨by norm_num, rfl⟩⟩
  have hkey : (0 : Int) ∈ keysH (stepW (initWorld (σ := Unit) (T := Unit) 0 ())
      (Cmd.reg 65 [] [] unitCb (fun _ _ _ => true))).mgr.handlers := by
    show (0 : Int) ∈ [(0 : Int)]
    exact List.mem_singleton.mpr rfl
  exact ⟨hreach, hkey, (claim_C6_lockstep _ hreach 0).mp hkey⟩

/-- C4: `unregister` returns an `UnregistrationFailed` error and leaves
the manager (in particular its table) completely unchanged when the OS
release call fails; on OS success it removes the id's entry and returns
`Ok`.  For a reachable world whose OS bindings were created only by
this manager's operations (the OS honestly succeeding exactly on its
live bindings), unregistering an identifier absent from the table fails
with `UnregistrationFailed` and the manager is unchanged. -/
theorem claim_C4_unregister_failure (m : HotkeyManager σ T) (id : Int)
    (osU : Int → Bool) (w : World σ T) :
    (osU id = false →
      unregister m id osU = (Except.error HkError.UnregistrationFailed, m))
    ∧ (osU id = true →
      unregister m id osU = (Except.ok (), ⟨m.id_offset, removeH id m.handlers⟩))
    ∧ (Reachable w → id ∉ keysH w.mgr.handlers →
      unregister w.mgr id (fun i => decide (i ∈ w.osLive)) =
        (Except.error HkError.UnregistrationFailed, w.mgr)) := by
  refine ⟨?_, ?_, ?_⟩
  · intro h
    rw [unregister_def, if_neg (by simp [h])]
  · intro h
    rw [unregister_def, if_pos h]
  · intro hr hid
    have hlive : id ∉ w.osLive :=
      fun hmem => hid ((keysLive_of_reachable w hr id).mpr hmem)
    rw [unregister_def, if_neg (by simp [hlive])]

/-- Witness for C4 at concrete inputs: a failing OS leaves a one-entry
table untouched, a succeeding OS removes the entry, and on a freshly
constructed manager (reachable, honest OS) unregistering the absent
identifier 7 fails. -/
theorem claim_C4_unregister_failure_witness :
    unregister (⟨5, [(3, ⟨unitCb, []⟩)]⟩ : HotkeyManager Unit Unit) 3
        (fun _ => false)
      = (Except.error HkError.UnregistrationFailed, ⟨5, [(3, ⟨unitCb, []⟩)]⟩)
    ∧ unregister (⟨5, [(3, ⟨unitCb, []⟩)]⟩ : HotkeyManager Unit Unit) 3
        (fun _ => true)
      = (Except.ok (), ⟨5, removeH 3 [(3, ⟨unitCb, []⟩)]⟩)
    ∧ unregister (initWorld (σ := Unit) (T := Unit) 0 ()).mgr 7
        (fun i => decide (i ∈ (initWorld (σ := Unit) (T := Unit) 0 ()).osLive))
      = (Except.error HkError.UnregistrationFailed,
          (initWorld (σ := Unit) (T := Unit) 0 ()).mgr) := by
  refine ⟨?_, ?_, ?_⟩
  · exact (claim_C4_unregister_failure _ 3 _
      (initWorld (σ := Unit) (T := Unit) 0 ())).1 rfl
  · exact (claim_C4_unregister_failure _ 3 _
      (initWorld (σ := Unit) (T := Unit) 0 ())).2.1 rfl
  · exact (claim_C4_unregister_failure
      (⟨5, [(3, ⟨unitCb, []⟩)]⟩ : HotkeyManager Unit Unit) 7 (fun _ => false)
      (initWorld (σ := Unit) (T := Unit) 0 ())).2.2
      ⟨0, (), [],
        show (-2147483648 ≤ (0 : Int) ∧ (0 : Int) < 2147483648) ∧ _ from
          ⟨by norm_num, rfl⟩⟩
      (by decide)

/-- C8: a successful `register_extrakeys` stores exactly the given
callback and extra-keys copy under the fresh identifier, grows the
table by exactly one entry, and leaves the entry of every other
identifier unchanged; a successful `unregister id` removes exactly the
entry of `id` and leaves every other entry unchanged, so no operation
mutates an existing registration in place. -/
theorem claim_C8_frame (m : HotkeyManager σ T) (key : VKey)
    (mods : List ModKey) (extra : List VKey) (cb : σ → T × σ)
    (osReg : Int → Nat → Int → Bool) (id : Int) (osU : Int → Bool) :
    (m.id_offset ∉ keysH m.handlers →
      osReg m.id_offset (registerMask mods) (VKey.to_vk_code key) = true →
      lookupH m.id_offset (register_extrakeys m key mods extra cb osReg).2.handlers
          = some ⟨cb, extra⟩
        ∧ (register_extrakeys m key mods extra cb osReg).2.handlers.length
            = m.handlers.length + 1
        ∧ ∀ j : Int, j ≠ m.id_offset →
            lookupH j (register_extrakeys m key mods extra cb osReg).2.handlers
              = lookupH j m.handlers)
    ∧ (osU id = true →
      lookupH id (unregister m id osU).2.handlers = none
        ∧ ∀ j : Int, j ≠ id →
            lookupH j (unregister m id osU).2.handlers = lookupH j m.handlers) := by
  constructor
  · intro hfresh hok
    rw [register_extrakeys_def, if_pos hok]
    refine ⟨?_, ?_, ?_⟩
    · show lookupH m.id_offset (insertH m.id_offset ⟨cb, extra⟩ m.handlers)
        = some ⟨cb, extra⟩
      rw [insertH_fresh _ _ _ hfresh]
      exact lookupH_append_single_self _ _ _ hfresh
    · show (insertH m.id_offset ⟨cb, extra⟩ m.handlers).length
        = m.handlers.length + 1
      rw [insertH_fresh _ _ _ hfresh]
      simp
    · intro j hj
      show lookupH j (insertH m.id_offset ⟨cb, extra⟩ m.handlers)
        = lookupH j m.handlers
      rw [insertH_fresh _ _ _ hfresh]
      exact lookupH_append_single_ne _ _ _ _ (Ne.symm hj)
  · intro hok
    rw [unregister_def, if_pos hok]
    refine ⟨?_, ?_⟩
    · show lookupH id (removeH id m.handlers) = none
      exact lookupH_removeH_self id m.handlers
    · intro j hj
      show lookupH j (removeH id m.handlers) = lookupH j m.handlers
      exact lookupH_removeH_ne id j m.handlers hj

/-- Witness for C8: on a one-entry manager, a successful registration
stores the new entry under the fresh identifier 1 and entry 0 is
unchanged; a successful unregistration of 0 removes only entry 0. -/
theorem claim_C8_frame_witness :
    lookupH 1 (register_extrakeys
        (⟨1, [(0, ⟨natCb, [65]⟩)]⟩ : HotkeyManager Nat Nat)
        66 [] [67] natCb (fun _ _ _ => true)).2.handlers
      = some ⟨natCb, [67]⟩
    ∧ lookupH 0 (register_extrakeys
        (⟨1, [(0, ⟨natCb, [65]⟩)]⟩ : HotkeyManager Nat Nat)
        66 [] [67] natCb (fun _ _ _ => true)).2.handlers
      = lookupH 0 [(0, ⟨natCb, [65]⟩)]
    ∧ lookupH 0 (unregister
        (⟨1, [(0, ⟨natCb, [65]⟩)]⟩ : HotkeyManager Nat Nat)
        0 (fun _ => true)).2.handlers = none := by
  obtain ⟨h1, h2⟩ := claim_C8_frame
    (⟨1, [(0, ⟨natCb, [65]⟩)]⟩ : HotkeyManager Nat Nat)
    66 [] [67] natCb (fun _ _ _ => true) 0 (fun _ => true)
  obtain ⟨ha, _, hc⟩ := h1 (by decide) rfl
  exact ⟨ha, hc 0 (by decide), (h2 rfl).1⟩

/-- C7: with a retrieved message that is not of the `WM_HOTKEY` class,
or whose identifier has no entry in the handler table, `poll_event`
produces no result, invokes no callback (the effect state is returned
unchanged), and leaves the table unchanged. -/
theorem claim_C7_no_match (m : HotkeyManager σ T) (msg : Msg)
    (osKS : Int → Int) (s : σ) :
    (msg.message ≠ WM_HOTKEY → poll_event m true msg osKS s = (none, m, s))
    ∧ (lookupH (wrap32 (Int.ofNat msg.wParam)) m.handlers = none →
      poll_event m true msg osKS s = (none, m, s)) := by
  constructor
  · intro h
    rw [poll_event_def, if_pos rfl, if_neg (fun hh => h hh.symm)]
  · intro h
    rw [poll_event_def, if_pos rfl]
    by_cases hm : WM_HOTKEY = msg.message
    · rw [if_pos hm, h]
    · rw [if_neg hm]

/-- Witness for C7: a non-hotkey message (class 1) and a hotkey message
with unregistered identifier 9 both yield no result on a one-entry
manager, leaving table and effect state unchanged. -/
theorem claim_C7_no_match_witness :
    poll_event (⟨1, [(0, ⟨natCb, [65]⟩)]⟩ : HotkeyManager Nat Nat) true
        ⟨1, 0⟩ (fun _ => -32768) 5
      = (none, ⟨1, [(0, ⟨natCb, [65]⟩)]⟩, 5)
    ∧ poll_event (⟨1, [(0, ⟨natCb, [65]⟩)]⟩ : HotkeyManager Nat Nat) true
        ⟨786, 9⟩ (fun _ => -32768) 5
      = (none, ⟨1, [(0, ⟨natCb, [65]⟩)]⟩, 5) := by
  constructor
  · exact (claim_C7_no_match _ ⟨1, 0⟩ _ 5).1 (by decide)
  · exact (claim_C7_no_match _ ⟨786, 9⟩ _ 5).2 rfl

/-- C1: when `poll_event` retrieves a `WM_HOTKEY` message whose
identifier is registered, it invokes the stored callback exactly once
(the effect state advances by exactly one application) and returns
`some` of its result if and only if every key in that registration's
extra-keys list is reported pressed by the key-state query at dispatch
time (trivially so for an empty extra-keys list); if any extra key is
not pressed it returns `none` and the callback is not invoked (the
effect state is unchanged). -/
theorem claim_C1_extra_key_gate (m : HotkeyManager σ T) (msg : Msg)
    (osKS : Int → Int) (s : σ) (handler : HotkeyCallback σ T)
    (hmsg : msg.message = WM_HOTKEY)
    (hlook : lookupH (wrap32 (Int.ofNat msg.wParam)) m.handlers = some handler) :
    ((∀ vk ∈ handler.extra_keys, get_global_keystate osKS vk = true) →
      poll_event m true msg osKS s
        = (some (handler.callback s).1, m, (handler.callback s).2))
    ∧ ((¬ ∀ vk ∈ handler.extra_keys, get_global_keystate osKS vk = true) →
      poll_event m true msg osKS s = (none, m, s))
    ∧ (poll_event m true msg osKS s
          = (some (handler.callback s).1, m, (handler.callback s).2)
        ↔ ∀ vk ∈ handler.extra_keys, get_global_keystate osKS vk = true) := by
  have hbase : poll_event m true msg osKS s =
      (match handler.extra_keys.find?
          (fun vk => !(get_global_keystate osKS vk)) with
       | none => (some (handler.callback s).1, m, (handler.callback s).2)
       | some _ => (none, m, s)) := by
    rw [poll_event_def, if_pos rfl, if_pos hmsg.symm, hlook]
  have hall : (handler.extra_keys.find?
        (fun vk => !(get_global_keystate osKS vk)) = none)
      ↔ ∀ vk ∈ handler.extra_keys, get_global_keystate osKS vk = true := by
    rw [List.find?_eq_none]
    constructor
    · intro h vk hvk
      simpa using h vk hvk
    · intro h vk hvk
      simpa using h vk hvk
  rw [hbase]
  cases hf : handler.extra_keys.find?
      (fun vk => !(get_global_keystate osKS vk)) with
  | none =>
    have hA : ∀ vk ∈ handler.extra_keys, get_global_keystate osKS vk = true :=
      hall.mp hf
    exact ⟨fun _ => rfl, fun h => absurd hA h, fun _ => hA, fun _ => rfl⟩
  | some vk0 =>
    have hA : ¬ ∀ vk ∈ handler.extra_keys, get_global_keystate osKS vk = true := by
      intro h2
      have hnone := hall.mpr h2
      rw [hf] at hnone
      cases hnone
    refine ⟨fun h => absurd h hA, fun _ => rfl, fun heq => ?_, fun h => absurd h hA⟩
    exact absurd (congrArg (fun p => p.1) heq) (by simp)

/-- Witness for C1: on a one-entry manager with extra key 65 and a
matching message for identifier 0, a pressed key state fires the
counting callback once (result 6, effect state 5 becomes 6), and a
released key state yields no result with the effect state untouched. -/
theorem claim_C1_extra_key_gate_witness :
    poll_event (⟨1, [(0, ⟨natCb, [65]⟩)]⟩ : HotkeyManager Nat Nat) true
        ⟨786, 0⟩ (fun _ => -32768) 5
      = (some 6, ⟨1, [(0, ⟨natCb, [65]⟩)]⟩, 6)
    ∧ poll_event (⟨1, [(0, ⟨natCb, [65]⟩)]⟩ : HotkeyManager Nat Nat) true
        ⟨786, 0⟩ (fun _ => 0) 5
      = (none, ⟨1, [(0, ⟨natCb, [65]⟩)]⟩, 5) := by
  constructor
  · exact (claim_C1_extra_key_gate
      (⟨1, [(0, ⟨natCb, [65]⟩)]⟩ : HotkeyManager Nat Nat)
      ⟨786, 0⟩ (fun _ => -32768) 5 ⟨natCb, [65]⟩ rfl rfl).1 (by decide)
  · exact (claim_C1_extra_key_gate
      (⟨1, [(0, ⟨natCb, [65]⟩)]⟩ : HotkeyManager Nat Nat)
      ⟨786, 0⟩ (fun _ => 0) 5 ⟨natCb, [65]⟩ rfl rfl).2.1 (by decide)

/-! The `unregister_all` walk. -/

theorem unregAllGo_nil (osU : Int → Bool) (m : HotkeyManager σ T) :
    unregAllGo osU m [] = (Except.ok (), m) := rfl

theorem unregAllGo_cons (osU : Int → Bool) (m : HotkeyManager σ T)
    (id : Int) (rest : List Int) :
    unregAllGo osU m (id :: rest) =
      if osU id then
        unregAllGo osU ⟨m.id_offset, removeH id m.handlers⟩ rest
      else (Except.error HkError.UnregistrationFailed, m) := by
  simp only [unregAllGo]
  rw [unregister_def]
  by_cases h : osU id
  · rw [if_pos h, if_pos h]
  · rw [if_neg h, if_neg h]

theorem filter_notMem_nil (l : List (Int × HotkeyCallback σ T)) :
    l.filter (fun e => decide (e.1 ∉ ([] : List Int))) = l := by
  apply List.filter_eq_self.mpr
  intro e _
  simp

theorem filter_notMem_cons (id : Int) (rest : List Int)
    (l : List (Int × HotkeyCallback σ T)) :
    (removeH id l).filter (fun e => decide (e.1 ∉ rest))
      = l.filter (fun e => decide (e.1 ∉ id :: rest)) := by
  unfold removeH
  rw [List.filter_filter]
  apply List.filter_congr
  intro e _
  by_cases h1 : e.1 = id <;> by_cases h2 : e.1 ∈ rest <;> simp [h1, h2]

theorem unregAllGo_success (osU : Int → Bool) (ids : List Int) :
    ∀ m : HotkeyManager σ T, (∀ i ∈ ids, osU i = true) →
      unregAllGo osU m ids =
        (Except.ok (),
          ⟨m.id_offset, m.handlers.filter (fun e => decide (e.1 ∉ ids))⟩) := by
  induction ids with
  | nil =>
    intro m _
    rw [unregAllGo_nil, filter_notMem_nil]
  | cons id rest ih =>
    intro m h
    rw [unregAllGo_cons, if_pos (h id (List.mem_cons_self id rest))]
    rw [ih ⟨m.id_offset, removeH id m.handlers⟩
      (fun i hi => h i (List.mem_cons_of_mem id hi))]
    rw [show (⟨m.id_offset, removeH id m.handlers⟩ :
        HotkeyManager σ T).handlers = removeH id m.handlers from rfl]
    rw [filter_notMem_cons]

theorem unregAllGo_fail (osU : Int → Bool) (f : Int) (r : List Int)
    (hf : osU f = false) :
    ∀ (p : List Int) (m : HotkeyManager σ T), (∀ i ∈ p, osU i = true) →
      unregAllGo osU m (p ++ f :: r) =
        (Except.error HkError.UnregistrationFailed,
          ⟨m.id_offset, m.handlers.filter (fun e => decide (e.1 ∉ p))⟩) := by
  intro p
  induction p with
  | nil =>
    intro m _
    rw [List.nil_append, unregAllGo_cons, if_neg (by simp [hf]),
      filter_notMem_nil]
  | cons id rest ih =>
    intro m h
    rw [List.cons_append, unregAllGo_cons,
      if_pos (h id (List.mem_cons_self id rest))]
    rw [ih ⟨m.id_offset, removeH id m.handlers⟩
      (fun i hi => h i (List.mem_cons_of_mem id hi))]
    rw [show (⟨m.id_offset, removeH id m.handlers⟩ :
        HotkeyManager σ T).handlers = removeH id m.handlers from rfl]
    rw [filter_notMem_cons]

theorem lookupH_filter_notMem (p : List Int) (j : Int)
    (l : List (Int × HotkeyCallback σ T)) :
    lookupH j (l.filter (fun e => decide (e.1 ∉ p)))
      = if j ∈ p then none else lookupH j l := by
  induction l with
  | nil => by_cases h : j ∈ p <;> simp [lookupH, h]
  | cons e rest ih =>
    by_cases he : e.1 ∈ p
    · rw [List.filter_cons_of_neg (by simp [he])]
      rw [ih]
      by_cases hj : j ∈ p
      · simp [hj]
      · have hne : e.1 ≠ j := fun hh => hj (hh ▸ he)
        simp [lookupH, hne, hj]
    · rw [List.filter_cons_of_pos (by simp [he])]
      by_cases hej : e.1 = j
      · subst hej
        simp [lookupH, he]
      · simp only [lookupH, if_neg hej]
        exact ih

/-- C5: `unregister_all` walks the snapshot of registered identifiers
taken before any removal (the decomposition below is of the key list as
it was at entry).  When the OS accepts every release, it returns `Ok`
and the table is empty.  At the first OS failure it stops and
propagates the error: every identifier before the failing one has been
removed, while the failing identifier and all not-yet-visited
identifiers keep their entries unchanged. -/
theorem claim_C5_unregister_all (m : HotkeyManager σ T) (osU : Int → Bool) :
    ((∀ i ∈ keysH m.handlers, osU i = true) →
      unregister_all m osU = (Except.ok (), ⟨m.id_offset, []⟩))
    ∧ (∀ (p : List Int) (f : Int) (r : List Int),
        keysH m.handlers = p ++ f :: r →
        (keysH m.handlers).Nodup →
        (∀ i ∈ p, osU i = true) → osU f = false →
        (unregister_all m osU).1 = Except.error HkError.UnregistrationFailed
        ∧ (∀ i ∈ p, lookupH i (unregister_all m osU).2.handlers = none)
        ∧ lookupH f (unregister_all m osU).2.handlers = lookupH f m.handlers
        ∧ ∀ i ∈ r, lookupH i (unregister_all m osU).2.handlers
            = lookupH i m.handlers) := by
  constructor
  · intro h
    unfold unregister_all
    rw [unregAllGo_success osU (keysH m.handlers) m h]
    have hnil : m.handlers.filter
        (fun e => decide (e.1 ∉ keysH m.handlers)) = [] := by
      apply List.filter_eq_nil_iff.mpr
      intro e he
      simp only [decide_eq_true_eq, not_not]
      exact (mem_keysH e.1 m.handlers).mpr ⟨e, he, rfl⟩
    rw [hnil]
  · intro p f r hsplit hnodup hp hf
    rw [hsplit] at hnodup
    obtain ⟨hnp, hnfr, hdisj⟩ := List.nodup_append.mp hnodup
    have hfp : f ∉ p := fun hmem => hdisj hmem (List.mem_cons_self f r)
    unfold unregister_all
    rw [hsplit, unregAllGo_fail osU f r hf p m hp]
    refine ⟨rfl, ?_, ?_, ?_⟩
    · intro i hi
      show lookupH i (m.handlers.filter (fun e => decide (e.1 ∉ p))) = none
      rw [lookupH_filter_notMem, if_pos hi]
    · show lookupH f (m.handlers.filter (fun e => decide (e.1 ∉ p)))
        = lookupH f m.handlers
      rw [lookupH_filter_notMem, if_neg hfp]
    · intro i hi
      have hip : i ∉ p := fun hmem => hdisj hmem (List.mem_cons_of_mem f hi)
      show lookupH i (m.handlers.filter (fun e => decide (e.1 ∉ p)))
        = lookupH i m.handlers
      rw [lookupH_filter_notMem, if_neg hip]

/-- Witness for C5 on a two-entry manager (identifiers 0 and 1): a
fully succeeding OS empties the table with `Ok`; an OS that accepts
only identifier 0 makes the walk fail at identifier 1, having removed
entry 0 and kept entry 1 unchanged. -/
theorem claim_C5_unregister_all_witness :
    unregister_all
        (⟨2, [(0, ⟨unitCb, []⟩), (1, ⟨unitCb, []⟩)]⟩ : HotkeyManager Unit Unit)
        (fun _ => true)
      = (Except.ok (), ⟨2, []⟩)
    ∧ (unregister_all
        (⟨2, [(0, ⟨unitCb, []⟩), (1, ⟨unitCb, []⟩)]⟩ : HotkeyManager Unit Unit)
        (fun i => decide (i = 0))).1
      = Except.error HkError.UnregistrationFailed
    ∧ lookupH 0 (unregister_all
        (⟨2, [(0, ⟨unitCb, []⟩), (1, ⟨unitCb, []⟩)]⟩ : HotkeyManager Unit Unit)
        (fun i => decide (i = 0))).2.handlers = none
    ∧ lookupH 1 (unregister_all
        (⟨2, [(0, ⟨unitCb, []⟩), (1, ⟨unitCb, []⟩)]⟩ : HotkeyManager Unit Unit)
        (fun i => decide (i = 0))).2.handlers
      = lookupH 1 [(0, ⟨unitCb, []⟩), (1, ⟨unitCb, []⟩)] := by
  obtain ⟨h1, h2, h3, _⟩ := (claim_C5_unregister_all
    (⟨2, [(0, ⟨unitCb, []⟩), (1, ⟨unitCb, []⟩)]⟩ : HotkeyManager Unit Unit)
    (fun i => decide (i = 0))).2 [0] 1 [] rfl (by decide) (by decide) (by decide)
  exact ⟨(claim_C5_unregister_all
      (⟨2, [(0, ⟨unitCb, []⟩), (1, ⟨unitCb, []⟩)]⟩ : HotkeyManager Unit Unit)
      (fun _ => true)).1 (by decide),
    h1, h2 0 (List.mem_singleton.mpr rfl), h3⟩

/-! Identifier allocation along a trace. -/

theorem wUnregGo_id_offset (osU : Int → Bool) (ids : List Int) :
    ∀ w : World σ T, (wUnregGo osU w ids).mgr.id_offset = w.mgr.id_offset := by
  induction ids with
  | nil => exact fun w => rfl
  | cons id rest ih =>
    intro w
    rw [wUnregGo_cons]
    by_cases h : osU id
    · rw [if_pos h, ih]
    · rw [if_neg h]

theorem stepW_reg_id_offset (w : World σ T) (key : VKey) (mods : List ModKey)
    (extra : List VKey) (cb : σ → T × σ) (osReg : Int → Nat → Int → Bool) :
    (stepW w (Cmd.reg key mods extra cb osReg)).mgr.id_offset
      = wrap32 (w.mgr.id_offset + 1) := by
  rw [stepW_reg]
  by_cases h : osReg w.mgr.id_offset (registerMask mods) (VKey.to_vk_code key)
  · rw [if_pos h]
  · rw [if_neg h]

theorem stepW_unreg_id_offset (w : World σ T) (id : Int) (osU : Int → Bool) :
    (stepW w (Cmd.unreg id osU)).mgr.id_offset = w.mgr.id_offset := by
  rw [stepW_unreg]
  by_cases h : osU id
  · rw [if_pos h]
  · rw [if_neg h]

theorem stepW_unregAll_id_offset (w : World σ T) (osU : Int → Bool) :
    (stepW w (Cmd.unregAll osU)).mgr.id_offset = w.mgr.id_offset := by
  rw [stepW_unregAll, wUnregGo_id_offset]

theorem stepW_poll_id_offset (w : World σ T) (gOk : Bool) (msg : Msg)
    (osKS : Int → Int) :
    (stepW w (Cmd.poll gOk msg osKS)).mgr.id_offset = w.mgr.id_offset := by
  rw [stepW_poll]
  show ((poll_event w.mgr gOk msg osKS w.eff).2.1).id_offset = _
  rw [poll_event_mgr]

theorem runC_nil (w : World σ T) : runC w [] = (w, []) := rfl

theorem runC_cons (w : World σ T) (c : Cmd σ T) (cs : List (Cmd σ T)) :
    runC w (c :: cs) =
      ((runC (stepW w c) cs).1, cmdIds w c ++ (runC (stepW w c) cs).2) := rfl

theorem runC_snd_cons (w : World σ T) (c : Cmd σ T) (cs : List (Cmd σ T)) :
    (runC w (c :: cs)).2 = cmdIds w c ++ (runC (stepW w c) cs).2 := rfl

theorem cmdIds_reg (w : World σ T) (key : VKey) (mods : List ModKey)
    (extra : List VKey) (cb : σ → T × σ) (osReg : Int → Nat → Int → Bool) :
    cmdIds w (Cmd.reg key mods extra cb osReg) =
      if osReg w.mgr.id_offset (registerMask mods) (VKey.to_vk_code key) then
        [w.mgr.id_offset]
      else [] := by
  simp only [cmdIds]
  rw [register_extrakeys_def]
  by_cases h : osReg w.mgr.id_offset (registerMask mods) (VKey.to_vk_code key)
  · rw [if_pos h, if_pos h]
  · rw [if_neg h, if_neg h]

/-- The identifiers a trace hands out are, in order, a sublist of the
successive counter values `wrap32 (o + k)` for `k` below the number of
register calls. -/
theorem runC_ids_sublist (cs : List (Cmd σ T)) :
    ∀ w : World σ T, InI32 w.mgr.id_offset →
      ((runC w cs).2).Sublist
        ((List.range (countRegs cs)).map
          (fun k : Nat => wrap32 (w.mgr.id_offset + (k : Int)))) := by
  induction cs with
  | nil =>
    intro w _
    rw [runC_nil]
    exact List.nil_sublist _
  | cons c cs ih =>
    intro w hw
    rw [runC_cons]
    have hshift : ∀ n : Nat,
        (stepW w c).mgr.id_offset = wrap32 (w.mgr.id_offset + 1) →
        (List.range n).map (fun k => wrap32 ((stepW w c).mgr.id_offset + ↑k))
          = (List.range n).map (fun k => wrap32 (w.mgr.id_offset + (↑k + 1))) := by
      intro n hoff
      rw [hoff]
      apply List.map_congr_left
      intro k _
      rw [wrap32_add_left]
      congr 1
      ring
    have hrange : ∀ n : Nat,
        (List.range (n + 1)).map (fun k => wrap32 (w.mgr.id_offset + ↑k))
          = wrap32 (w.mgr.id_offset + 0)
            :: (List.range n).map (fun k => wrap32 (w.mgr.id_offset + (↑k + 1))) := by
      intro n
      rw [List.range_succ_eq_map, List.map_cons, List.map_map]
      constructor
    cases c with
    | reg key mods extra cb osReg =>
      have hoff := stepW_reg_id_offset w key mods extra cb osReg
      have hcount : countRegs (Cmd.reg key mods extra cb osReg :: cs)
          = countRegs cs + 1 := by
        simp [countRegs, List.countP_cons]
      rw [hcount, hrange (countRegs cs), cmdIds_reg]
      have hrec := ih (stepW w (Cmd.reg key mods extra cb osReg))
        (hoff ▸ wrap32_in_i32 _)
      rw [hshift (countRegs cs) hoff] at hrec
      by_cases h : osReg w.mgr.id_offset (registerMask mods) (VKey.to_vk_code key)
      · rw [if_pos h]
        have ho : wrap32 (w.mgr.id_offset + 0) = w.mgr.id_offset := by
          rw [add_zero, wrap32_eq_self hw]
        rw [ho]
        exact List.cons_sublist_cons.mpr hrec
      · rw [if_neg h, List.nil_append]
        exact hrec.trans (List.sublist_cons_self _ _)
    | unreg id osU =>
      have hoff := stepW_unreg_id_offset w id osU
      have hcount : countRegs (Cmd.unreg id osU :: cs) = countRegs cs := by
        simp [countRegs, List.countP_cons]
      rw [hcount]
      have hrec := ih (stepW w (Cmd.unreg id osU)) (hoff ▸ hw)
      rw [hoff] at hrec
      exact hrec
    | unregAll osU =>
      have hoff := stepW_unregAll_id_offset w osU
      have hcount : countRegs (Cmd.unregAll osU :: cs) = countRegs cs := by
        simp [countRegs, List.countP_cons]
      rw [hcount]
      have hrec := ih (stepW w (Cmd.unregAll osU)) (hoff ▸ hw)
      rw [hoff] at hrec
      exact hrec
    | poll gOk msg osKS =>
      have hoff := stepW_poll_id_offset w gOk msg osKS
      have hcount : countRegs (Cmd.poll gOk msg osKS :: cs) = countRegs cs := by
        simp [countRegs, List.countP_cons]
      rw [hcount]
      have hrec := ih (stepW w (Cmd.poll gOk msg osKS)) (hoff ▸ hw)
      rw [hoff] at hrec
      exact hrec

/-- C2 (amended): identifiers handed out by register calls are pairwise
distinct — never reused after unregistration or failed registration —
for every operation sequence containing at most `2 ^ 32` register
calls; the `i32` counter advances by one (with wrap-around) per call,
so unbounded sequences eventually wrap and strict monotonicity holds
only until the counter passes `i32::MAX`. -/
theorem claim_C2_amended (o : Int) (s : σ) (cs : List (Cmd σ T))
    (ho : InI32 o) (hn : countRegs cs ≤ 4294967296) :
    ((runC (initWorld o s) cs).2).Nodup := by
  have hsub := runC_ids_sublist cs (initWorld o s) ho
  apply List.Nodup.sublist hsub
  apply List.Nodup.map_on
  · intro x hx y hy hxy
    rw [List.mem_range] at hx hy
    have hmod := wrap32_inj hxy
    omega
  · exact List.nodup_range _

/-- Witness for C2 (amended): a two-call trace from offset 0 with one
success and one OS failure hands out only identifier 0, a duplicate-free
list. -/
theorem claim_C2_amended_witness :
    InI32 0
    ∧ countRegs [Cmd.reg 65 [] [] unitCb (fun _ _ _ => true),
        Cmd.reg 66 [] [] unitCb (fun _ _ _ => false),
        Cmd.reg 67 [] [] unitCb (fun _ _ _ => true)] ≤ 4294967296
    ∧ (runC (initWorld (σ := Unit) (T := Unit) 0 ())
        [Cmd.reg 65 [] [] unitCb (fun _ _ _ => true),
          Cmd.reg 66 [] [] unitCb (fun _ _ _ => false),
          Cmd.reg 67 [] [] unitCb (fun _ _ _ => true)]).2 = [0, 2]
    ∧ ((runC (initWorld (σ := Unit) (T := Unit) 0 ())
        [Cmd.reg 65 [] [] unitCb (fun _ _ _ => true),
          Cmd.reg 66 [] [] unitCb (fun _ _ _ => false),
          Cmd.reg 67 [] [] unitCb (fun _ _ _ => true)]).2).Nodup := by
  refine ⟨show (-2147483648 ≤ (0 : Int) ∧ (0 : Int) < 2147483648) from
      by norm_num, by decide, by decide, ?_⟩
  exact claim_C2_amended 0 ()
    [Cmd.reg 65 [] [] unitCb (fun _ _ _ => true),
      Cmd.reg 66 [] [] unitCb (fun _ _ _ => false),
      Cmd.reg 67 [] [] unitCb (fun _ _ _ => true)]
    (show (-2147483648 ≤ (0 : Int) ∧ (0 : Int) < 2147483648) from by norm_num)
    (by decide)

/-- Counterexample to C2 as stated: construct the manager with offset
`i32::MAX` (a legal `new_with_id_offset` argument) and register twice
with the OS accepting both.  The identifiers handed out are
2147483647 and then -2147483648 — the `i32` counter wraps — so the
sequence of returned identifiers is not strictly increasing from the
construction offset. -/
theorem claim_C2_counterexample :
    (runC (initWorld (σ := Unit) (T := Unit) 2147483647 ())
        [Cmd.reg 65 [] [] unitCb (fun _ _ _ => true),
          Cmd.reg 66 [] [] unitCb (fun _ _ _ => true)]).2
      = [2147483647, -2147483648]
    ∧ ¬ ((2147483647 : Int) < -2147483648) := by
  constructor
  · decide
  · decide

/-- A concrete register command whose OS registration always succeeds,
used to drive the counter around its full cycle. -/
def okReg : Cmd Unit Unit := Cmd.reg 65 [] [] unitCb (fun _ _ _ => true)

/-- Running `n` always-succeeding register commands hands out exactly
the successive counter values `wrap32 (o + k)`, `k < n`. -/
theorem runC_replicate_ok (n : Nat) :
    ∀ w : World Unit Unit, InI32 w.mgr.id_offset →
      (runC w (List.replicate n okReg)).2
        = (List.range n).map
            (fun k : Nat => wrap32 (w.mgr.id_offset + (k : Int))) := by
  induction n with
  | zero =>
    intro w _
    simp [runC_nil]
  | succ n ih =>
    intro w hw
    rw [List.replicate_succ, runC_snd_cons]
    have hids : cmdIds w okReg = [w.mgr.id_offset] := by
      rw [show okReg = Cmd.reg 65 [] [] unitCb (fun _ _ _ => true) from rfl,
        cmdIds_reg, if_pos rfl]
    have hoff : (stepW w okReg).mgr.id_offset = wrap32 (w.mgr.id_offset + 1) :=
      stepW_reg_id_offset w 65 [] [] unitCb (fun _ _ _ => true)
    rw [hids, ih (stepW w okReg) (hoff ▸ wrap32_in_i32 _), hoff]
    rw [List.range_succ_eq_map, List.map_cons, List.map_map,
      List.singleton_append]
    congr 1
    · rw [show ((0 : Nat) : Int) = 0 from rfl, add_zero, wrap32_eq_self hw]
    · apply List.map_congr_left
      intro k _
      simp only [Function.comp]
      rw [wrap32_add_left]
      congr 1
      push_cast
      ring

/-- C3 (amended): when the OS registration call fails,
`register_extrakeys` returns a `RegistrationFailed` error, the handler
table is exactly as before, and the `i32` identifier counter has still
advanced by one, so the failed attempt's identifier is consumed and is
not handed out again within the next `2 ^ 32 - 1` register calls (one
short of a full counter wrap); when the OS call succeeds, the entry
(callback plus a copy of the extra keys) is inserted under the fresh
identifier and that identifier is returned. -/
theorem claim_C3_register_failed (m : HotkeyManager σ T) (key : VKey)
    (mods : List ModKey) (extra : List VKey) (cb : σ → T × σ)
    (osReg : Int → Nat → Int → Bool) :
    (osReg m.id_offset (registerMask mods) (VKey.to_vk_code key) = false →
      (register_extrakeys m key mods extra cb osReg).1
          = Except.error HkError.RegistrationFailed
      ∧ (register_extrakeys m key mods extra cb osReg).2.handlers = m.handlers
      ∧ (register_extrakeys m key mods extra cb osReg).2.id_offset
          = wrap32 (m.id_offset + 1))
    ∧ (osReg m.id_offset (registerMask mods) (VKey.to_vk_code key) = true →
      (register_extrakeys m key mods extra cb osReg).1 = Except.ok m.id_offset
      ∧ (register_extrakeys m key mods extra cb osReg).2.handlers
          = insertH m.id_offset ⟨cb, extra⟩ m.handlers)
    ∧ (∀ (w : World σ T) (osReg2 : Int → Nat → Int → Bool)
        (cs : List (Cmd σ T)),
        InI32 w.mgr.id_offset →
        osReg2 w.mgr.id_offset (registerMask mods) (VKey.to_vk_code key) = false →
        countRegs cs ≤ 4294967295 →
        w.mgr.id_offset ∉
          (runC (stepW w (Cmd.reg key mods extra cb osReg2)) cs).2) := by
  refine ⟨?_, ?_, ?_⟩
  · intro h
    rw [register_extrakeys_def, if_neg (by simp [h])]
    exact ⟨rfl, rfl, rfl⟩
  · intro h
    rw [register_extrakeys_def, if_pos h]
    exact ⟨rfl, rfl⟩
  · intro w osReg2 cs hw hfail hcount hmem
    have hoff := stepW_reg_id_offset w key mods extra cb osReg2
    have hsub := runC_ids_sublist cs (stepW w (Cmd.reg key mods extra cb osReg2))
      (hoff ▸ wrap32_in_i32 _)
    have hmem2 := hsub.subset hmem
    rw [hoff] at hmem2
    obtain ⟨k, hk, hkeq⟩ := List.mem_map.mp hmem2
    rw [List.mem_range] at hk
    rw [wrap32_add_left] at hkeq
    have h1 : wrap32 (w.mgr.id_offset + 1 + (k : Int))
        = wrap32 w.mgr.id_offset := by
      rw [hkeq, wrap32_eq_self hw]
    have h2 := wrap32_inj h1
    omega

/-- Witness for C3 (amended): a failing registration on a fresh manager
returns the error, leaves the table empty, advances the counter from 0
to 1, and the consumed identifier 0 is not handed out by a following
successful registration (which hands out 1). -/
theorem claim_C3_register_failed_witness :
    (register_extrakeys (⟨0, []⟩ : HotkeyManager Unit Unit) 65 [] [] unitCb
        (fun _ _ _ => false)).1 = Except.error HkError.RegistrationFailed
    ∧ (register_extrakeys (⟨0, []⟩ : HotkeyManager Unit Unit) 65 [] [] unitCb
        (fun _ _ _ => false)).2.handlers = []
    ∧ (register_extrakeys (⟨0, []⟩ : HotkeyManager Unit Unit) 65 [] [] unitCb
        (fun _ _ _ => false)).2.id_offset = 1
    ∧ (0 : Int) ∉ (runC (stepW (initWorld (σ := Unit) (T := Unit) 0 ())
        (Cmd.reg 65 [] [] unitCb (fun _ _ _ => false))) [okReg]).2 := by
  obtain ⟨hfail, _, hthird⟩ := claim_C3_register_failed
    (⟨0, []⟩ : HotkeyManager Unit Unit) 65 [] [] unitCb (fun _ _ _ => false)
  obtain ⟨h1, h2, h3⟩ := hfail rfl
  refine ⟨h1, h2, ?_, ?_⟩
  · rw [h3]
    decide
  · exact hthird (initWorld (σ := Unit) (T := Unit) 0 ())
      (fun _ _ _ => false) [okReg]
      (show (-2147483648 ≤ (0 : Int) ∧ (0 : Int) < 2147483648) from by norm_num)
      rfl (by decide)

/-- Counterexample to C3 as stated: from a fresh manager at offset 0, a
failed registration consumes identifier 0 (nothing is returned and the
counter advances to 1), and yet after a full wrap of the 32-bit
counter — `2 ^ 32` further successful registrations — identifier 0 is
handed out again. -/
theorem claim_C3_counterexample :
    cmdIds (initWorld (σ := Unit) (T := Unit) 0 ())
        (Cmd.reg 65 [] [] unitCb (fun _ _ _ => false)) = []
    ∧ (stepW (initWorld (σ := Unit) (T := Unit) 0 ())
        (Cmd.reg 65 [] [] unitCb (fun _ _ _ => false))).mgr.id_offset = 1
    ∧ (0 : Int) ∈ (runC (initWorld (σ := Unit) (T := Unit) 0 ())
        (Cmd.reg 65 [] [] unitCb (fun _ _ _ => false)
          :: List.replicate 4294967296 okReg)).2 := by
  refine ⟨rfl, by decide, ?_⟩
  rw [runC_snd_cons]
  rw [show cmdIds (initWorld (σ := Unit) (T := Unit) 0 ())
      (Cmd.reg 65 [] [] unitCb (fun _ _ _ => false)) = [] from rfl]
  rw [List.nil_append]
  have hstep : stepW (initWorld (σ := Unit) (T := Unit) 0 ())
      (Cmd.reg 65 [] [] unitCb (fun _ _ _ => false))
      = ⟨⟨1, []⟩, [], ()⟩ := rfl
  rw [hstep]
  rw [runC_replicate_ok 4294967296 ⟨⟨1, []⟩, [], ()⟩
    (show (-2147483648 ≤ (1 : Int) ∧ (1 : Int) < 2147483648) from by norm_num)]
  apply List.mem_map.mpr
  refine ⟨4294967295, List.mem_range.mpr (by norm_num), ?_⟩
  decide

end WinHotkeys
